import Mathlib

/-!
# Verification of the GPV weather-data downloader core

A shallow embedding, in Lean 4, of the pure logic of the GPV-gif repository:

* `scripts/utils.py` — filename codec (`parse_filename`,
  `format_datetime_for_filename`) and the retention reconciler
  (`cleanup_old_files`);
* `scripts/download_gpv.py` — candidate URL generation
  (`generate_candidate_urls`), remote existence probing
  (`check_file_exists`, `find_latest_file`), the resilient fetcher
  (`download_file`) and the auto-mode orchestration (`download_auto`);
* `scripts/generate_cloud_gif.py` — the temporal frame selector and the
  animation-encoder cleanup behaviour of `generate_cloud_gifs`.

Python strings are modelled as `List Char`; Python `datetime` values as the
`Datetime` structure below (year/month/day/hour/minute; seconds and
microseconds are elided — every code path under study either leaves them
untouched or zeroes them together with the minute, so they carry no
information for the verified properties).  Machine I/O (HTTP responses,
the filesystem, `time.sleep`) is modelled by explicit inputs and outputs:
a HEAD response becomes an optional `(status, content-length)` pair, a
directory becomes a list of `(name, size)` entries, and sleeps are counted.
-/

/-! ## Python `datetime` model -/

/-- A Python `datetime.datetime` value, restricted to the fields the code
under study reads or writes.  Seconds and microseconds are elided (see the
module docstring). -/
structure Datetime where
  year : Nat
  month : Nat
  day : Nat
  hour : Nat
  minute : Nat
deriving DecidableEq, Repr

/-- `True` for leap years, mirroring the Gregorian rule used by Python's
`datetime` module. -/
def isLeapYear (y : Nat) : Bool :=
  y % 4 == 0 && (y % 100 != 0 || y % 400 == 0)

/-- Number of days in a month, as validated by `datetime.datetime(...)`. -/
def daysInMonth (y m : Nat) : Nat :=
  if m == 2 then (if isLeapYear y then 29 else 28)
  else if m == 4 || m == 6 || m == 9 || m == 11 then 30
  else 31

/-- Field bounds enforced by the `datetime.datetime` constructor
(`MINYEAR = 1`, `MAXYEAR = 9999`). -/
def Datetime.Valid (t : Datetime) : Prop :=
  1 ≤ t.year ∧ t.year ≤ 9999 ∧ 1 ≤ t.month ∧ t.month ≤ 12 ∧
  1 ≤ t.day ∧ t.day ≤ daysInMonth t.year t.month ∧
  t.hour ≤ 23 ∧ t.minute ≤ 59

instance (t : Datetime) : Decidable t.Valid := by
  unfold Datetime.Valid; infer_instance

/-- The `datetime.datetime(year, month, day, hour)` constructor: validates
the fields (raising `ValueError`, i.e. `none`, when out of range) and sets
minute to zero. `Int` arguments because Python `int()` can produce negative
numbers. -/
def mkDatetime (y mo d h : Int) : Option Datetime :=
  if 1 ≤ y ∧ y ≤ 9999 ∧ 1 ≤ mo ∧ mo ≤ 12 ∧
     1 ≤ d ∧ d ≤ (daysInMonth y.toNat mo.toNat : Int) ∧ 0 ≤ h ∧ h ≤ 23 then
    some ⟨y.toNat, mo.toNat, d.toNat, h.toNat, 0⟩
  else none

/-! ## Python `int(str)` model

CPython's `int(s)` strips ASCII whitespace from both ends, admits one
optional sign, and then requires a nonempty digit run in which single
underscores may separate digits.  (Non-ASCII digits are out of scope for
the filenames under study.) -/

/-- ASCII whitespace stripped by Python's `int()`/`str.strip()`. -/
def isPyWs (c : Char) : Bool :=
  c == ' ' || c == '\t' || c == '\n' || c == '\r' ||
  c == Char.ofNat 11 || c == Char.ofNat 12

/-- Digit-run scanner for `int()`: already-accumulated value `acc`, then
digits with single underscores allowed only between digits. -/
def digitsUSAux (acc : Nat) : List Char → Option Nat
  | [] => some acc
  | c :: rest =>
    if c = '_' then
      match rest with
      | [] => none
      | c2 :: rest2 =>
        if c2.isDigit then digitsUSAux (acc * 10 + (c2.toNat - 48)) rest2 else none
    else if c.isDigit then digitsUSAux (acc * 10 + (c.toNat - 48)) rest
    else none

/-- A nonempty underscore-separated digit run, as accepted by `int()`
after sign processing. -/
def digitsUS : List Char → Option Nat
  | [] => none
  | c :: rest =>
    if c.isDigit then digitsUSAux (c.toNat - 48) rest else none

/-- Strip leading and trailing Python whitespace. -/
def stripPyWs (l : List Char) : List Char :=
  ((l.dropWhile isPyWs).reverse.dropWhile isPyWs).reverse

/-- CPython `int(s)` on an ASCII string: `none` models `ValueError`. -/
def pyInt (l : List Char) : Option Int :=
  match stripPyWs l with
  | [] => none
  | c :: rest =>
    if c = '+' then (digitsUS rest).map Int.ofNat
    else if c = '-' then (digitsUS rest).map (fun n => -(n : Int))
    else (digitsUS (c :: rest)).map Int.ofNat

/-! ## The filename codec (`scripts/utils.py`) -/

/-- `parse_filename` (utils.py lines 35–63): checks the `MSM` head and
`S.nc` tail, slices characters `[3:13]`, converts the four fields with
`int()`, and builds a `datetime` — any `ValueError` yields `None`.
(Python's slicing never raises, so the `IndexError` arm of the original
`except` clause is unreachable; short inputs surface as `ValueError`
inside `int()`.) -/
def parse_filename (filename : List Char) : Option Datetime :=
  if "MSM".data.isPrefixOf filename && "S.nc".data.isSuffixOf filename then
    let datetime_str := (filename.drop 3).take 10
    match pyInt (datetime_str.take 4), pyInt ((datetime_str.drop 4).take 2),
          pyInt ((datetime_str.drop 6).take 2), pyInt ((datetime_str.drop 8).take 2) with
    | some y, some mo, some d, some h => mkDatetime y mo d h
    | _, _, _, _ => none
  else none

/-- Zero-padded base-10 rendering of `n` to exactly `w` characters
(faithful to Python's `strftime('%Y%m%d')` / `f"{h:02d}"` for in-range
values). -/
def padChars (w n : Nat) : List Char :=
  match w with
  | 0 => []
  | w + 1 => padChars w (n / 10) ++ [Char.ofNat (48 + n % 10)]

/-- `format_datetime_for_filename` (utils.py lines 168–185): returns the
`(YYYYMMDD, HH)` pair used to build `MSM{date}{hour}S.nc`. -/
def format_datetime_for_filename (dt : Datetime) : List Char × List Char :=
  (padChars 4 dt.year ++ padChars 2 dt.month ++ padChars 2 dt.day,
   padChars 2 dt.hour)

/-- The filename `MSM{date_str}{hour_str}S.nc` built by the downloader from
the output of `format_datetime_for_filename`. -/
def msmFilename (dt : Datetime) : List Char :=
  "MSM".data ++ (format_datetime_for_filename dt).1 ++
    (format_datetime_for_filename dt).2 ++ "S.nc".data

/-! ## Codec lemmas -/

theorem char_ne_of_toNat {c d : Char} (h : c.toNat ≠ d.toNat) : c ≠ d :=
  fun e => h (by rw [e])

theorem isDigit_toNat {c : Char} (h : c.isDigit = true) :
    48 ≤ c.toNat ∧ c.toNat ≤ 57 := by
  simp only [Char.isDigit, Bool.and_eq_true, decide_eq_true_eq] at h
  exact h

theorem isDigit_not_ws {c : Char} (h : c.isDigit = true) : isPyWs c = false := by
  obtain ⟨h1, h2⟩ := isDigit_toNat h
  simp only [isPyWs, Bool.or_eq_false_iff, beq_eq_false_iff_ne]
  refine ⟨⟨⟨⟨⟨?_, ?_⟩, ?_⟩, ?_⟩, ?_⟩, ?_⟩ <;>
    (intro e; subst e; revert h1 h2; decide)

theorem isDigit_ne_plus {c : Char} (h : c.isDigit = true) : c ≠ '+' := by
  intro e; subst e; revert h; decide

theorem isDigit_ne_minus {c : Char} (h : c.isDigit = true) : c ≠ '-' := by
  intro e; subst e; revert h; decide

theorem isDigit_ne_underscore {c : Char} (h : c.isDigit = true) : c ≠ '_' := by
  intro e; subst e; revert h; decide

theorem digitChar_toNat {r : Nat} (h : r < 10) :
    (Char.ofNat (48 + r)).toNat = 48 + r := by
  interval_cases r <;> decide

theorem digitChar_isDigit {r : Nat} (h : r < 10) :
    (Char.ofNat (48 + r)).isDigit = true := by
  interval_cases r <;> decide

theorem padChars_length (w n : Nat) : (padChars w n).length = w := by
  induction w generalizing n with
  | zero => rfl
  | succ w ih => simp [padChars, ih]

theorem padChars_isDigit {w n : Nat} {c : Char} (h : c ∈ padChars w n) :
    c.isDigit = true := by
  induction w generalizing n with
  | zero => simp [padChars] at h
  | succ w ih =>
    simp only [padChars, List.mem_append, List.mem_singleton] at h
    rcases h with h | h
    · exact ih h
    · subst h; exact digitChar_isDigit (Nat.mod_lt _ (by omega))

theorem stripPyWs_of_digits {l : List Char} (h : ∀ c ∈ l, c.isDigit = true) :
    stripPyWs l = l := by
  have drop : ∀ (m : List Char), (∀ c ∈ m, c.isDigit = true) →
      m.dropWhile isPyWs = m := by
    intro m hm
    cases m with
    | nil => rfl
    | cons a rest =>
      rw [List.dropWhile_cons, if_neg]
      simp [isDigit_not_ws (hm a (by simp))]
  unfold stripPyWs
  rw [drop l h, drop l.reverse (by intro c hc; exact h c (List.mem_reverse.mp hc)),
    List.reverse_reverse]

theorem digitsUSAux_digit {acc : Nat} {c : Char} {rest : List Char}
    (h : c.isDigit = true) :
    digitsUSAux acc (c :: rest) = digitsUSAux (acc * 10 + (c.toNat - 48)) rest := by
  conv_lhs => rw [digitsUSAux.eq_def]
  simp only [if_neg (isDigit_ne_underscore h), if_pos h]

theorem digitsUS_pad (w n : Nat) (ys : List Char) (h : n < 10 ^ (w + 1)) :
    digitsUS (padChars (w + 1) n ++ ys) = digitsUSAux n ys := by
  have hmod : ∀ k : Nat, k % 10 < 10 := fun k => Nat.mod_lt _ (by omega)
  induction w generalizing n ys with
  | zero =>
    have hn : n < 10 := by simpa using h
    have hpad : padChars 1 n = [Char.ofNat (48 + n % 10)] := by simp [padChars]
    rw [hpad, List.singleton_append, digitsUS, if_pos (digitChar_isDigit (hmod n)),
      digitChar_toNat (hmod n)]
    congr 1
    omega
  | succ w ih =>
    have hdiv : n / 10 < 10 ^ (w + 1) := by
      rw [Nat.div_lt_iff_lt_mul (by omega), ← pow_succ]
      exact h
    have hrec : padChars (w + 1 + 1) n ++ ys =
        padChars (w + 1) (n / 10) ++ ([Char.ofNat (48 + n % 10)] ++ ys) := by
      rw [padChars, List.append_assoc]
    rw [hrec, ih (n / 10) _ hdiv, List.singleton_append,
      digitsUSAux_digit (digitChar_isDigit (hmod n)), digitChar_toNat (hmod n)]
    congr 1
    omega

theorem isPrefixOf_self_append (l r : List Char) : l.isPrefixOf (l ++ r) = true := by
  induction l with
  | nil => simp [List.isPrefixOf]
  | cons a as ih => simp [List.isPrefixOf, ih]

theorem isSuffixOf_append_self (l r : List Char) : r.isSuffixOf (l ++ r) = true := by
  simp only [List.isSuffixOf, List.reverse_append]
  exact isPrefixOf_self_append _ _

theorem pyInt_digits {l : List Char} (hne : l ≠ []) (h : ∀ c ∈ l, c.isDigit = true) :
    pyInt l = (digitsUS l).map Int.ofNat := by
  unfold pyInt
  rw [stripPyWs_of_digits h]
  cases l with
  | nil => exact absurd rfl hne
  | cons a rest =>
    have ha := h a (by simp)
    simp only [if_neg (isDigit_ne_plus ha), if_neg (isDigit_ne_minus ha)]

theorem pyInt_pad (w n : Nat) (h : n < 10 ^ (w + 1)) :
    pyInt (padChars (w + 1) n) = some (n : Int) := by
  have hne : padChars (w + 1) n ≠ [] := by
    intro e
    have hl := padChars_length (w + 1) n
    rw [e] at hl
    simp at hl
  rw [pyInt_digits hne (fun c hc => padChars_isDigit hc)]
  have hd := digitsUS_pad w n [] h
  rw [List.append_nil] at hd
  rw [hd]
  rfl

/-- C6: for every valid `ForecastCycleTime` `t` (a `datetime` on a whole
hour: zero minutes — and, elided in the model, zero seconds and
microseconds), parsing the filename `MSM{date_str}{hour_str}S.nc` built
from `format_datetime_for_filename t` with `parse_filename` yields exactly
`t` (round-trip law). -/
theorem C6_parse_format_roundtrip (t : Datetime) (hv : t.Valid) (hm : t.minute = 0) :
    parse_filename (msmFilename t) = some t := by
  obtain ⟨hy1, hy2, hmo1, hmo2, hd1, hd2, hh, -⟩ := hv
  have hdm : t.day ≤ 31 := by
    have : daysInMonth t.year t.month ≤ 31 := by
      unfold daysInMonth
      split <;> [split <;> omega; split <;> omega]
    omega
  have hfile : msmFilename t = "MSM".data ++
      ((padChars 4 t.year ++ (padChars 2 t.month ++ (padChars 2 t.day ++ padChars 2 t.hour))) ++ "S.nc".data) := by
    simp [msmFilename, format_datetime_for_filename, List.append_assoc]
  have hpre : "MSM".data.isPrefixOf (msmFilename t) = true := by
    rw [hfile]; exact isPrefixOf_self_append _ _
  have hsuf : "S.nc".data.isSuffixOf (msmFilename t) = true := by
    rw [hfile, ← List.append_assoc]
    exact isSuffixOf_append_self _ _
  have hds : ((msmFilename t).drop 3).take 10 =
      padChars 4 t.year ++ (padChars 2 t.month ++ (padChars 2 t.day ++ padChars 2 t.hour)) := by
    rw [hfile, List.drop_left' (by rfl),
      List.take_left' (by simp [padChars_length])]
  unfold parse_filename
  rw [hpre, hsuf]
  simp only [Bool.and_self, if_true]
  rw [hds]
  rw [List.take_left' (padChars_length 4 t.year),
    List.drop_left' (padChars_length 4 t.year),
    List.take_left' (padChars_length 2 t.month)]
  have hdrop6 : (padChars 4 t.year ++ (padChars 2 t.month ++ (padChars 2 t.day ++ padChars 2 t.hour))).drop 6 =
      padChars 2 t.day ++ padChars 2 t.hour := by
    rw [← List.append_assoc, List.drop_left' (by simp [padChars_length])]
  have hdrop8 : (padChars 4 t.year ++ (padChars 2 t.month ++ (padChars 2 t.day ++ padChars 2 t.hour))).drop 8 =
      padChars 2 t.hour := by
    rw [← List.append_assoc, ← List.append_assoc, List.drop_left' (by simp [padChars_length])]
  have htake2 : (padChars 2 t.hour).take 2 = padChars 2 t.hour :=
    List.take_of_length_le (by rw [padChars_length])
  rw [hdrop6, List.take_left' (padChars_length 2 t.day), hdrop8, htake2]
  rw [show (4 : Nat) = 3 + 1 from rfl, show (2 : Nat) = 1 + 1 from rfl]
  rw [pyInt_pad 3 t.year (by omega), pyInt_pad 1 t.month (by omega),
    pyInt_pad 1 t.day (by omega), pyInt_pad 1 t.hour (by omega)]
  show mkDatetime (t.year : Int) (t.month : Int) (t.day : Int) (t.hour : Int) = some t
  unfold mkDatetime
  rw [if_pos]
  · cases t with
    | mk y mo d h mi =>
      simp only at hm
      subst hm
      simp [Int.toNat_ofNat]
  · refine ⟨by exact_mod_cast hy1, by exact_mod_cast hy2, by exact_mod_cast hmo1,
      by exact_mod_cast hmo2, by exact_mod_cast hd1, ?_, by positivity, by exact_mod_cast hh⟩
    rw [Int.toNat_ofNat, Int.toNat_ofNat]
    exact_mod_cast hd2

/-- Witness for C6 at the cycle time 2025-12-24 03:00. -/
theorem C6_parse_format_roundtrip_witness :
    (Datetime.mk 2025 12 24 3 0).Valid ∧
      parse_filename (msmFilename (Datetime.mk 2025 12 24 3 0)) =
        some (Datetime.mk 2025 12 24 3 0) :=
  ⟨by decide, C6_parse_format_roundtrip (Datetime.mk 2025 12 24 3 0) (by decide) rfl⟩

/-! ## Temporal frame selector (`scripts/generate_cloud_gif.py`) -/

/-- Temporal frame selector inside `generate_cloud_gifs`
(generate_cloud_gif.py lines 95–118): time-axis entries as minutes on the
UTC axis (`Int`), with the reference instant already converted from the
viewer's JST clock to UTC by lines 89–90.  The boolean mask
`time_values >= current_time_utc` keeps qualifying entries in axis order;
when the mask selects nothing (`future_mask.sum() == 0`) the code keeps
the whole axis and logs a warning instead.  An empty axis skips the
filter and stays empty, which this definition also yields. -/
def select_future_times (times : List Int) (now : Int) : List Int :=
  let future := times.filter (fun tv => now ≤ tv)
  if 0 < future.length then future else times

/-- C5: the selector retains exactly the time-axis entries `≥` now; on the
dataset `[t-3h, t, t+3h, t+6h]` with now `= t+1h` (minutes: 180 and 60) it
retains exactly `[t+3h, t+6h]`; and when no entry qualifies it retains the
full unfiltered axis. -/
theorem C5_temporal_frame_selector :
    (∀ t : Int,
      select_future_times [t - 180, t, t + 180, t + 360] (t + 60) = [t + 180, t + 360]) ∧
    (∀ times now, (∃ x ∈ times, now ≤ x) →
      select_future_times times now = times.filter (fun tv => now ≤ tv)) ∧
    (∀ times now, (∀ x ∈ times, x < now) → select_future_times times now = times) := by
  refine ⟨fun t => ?_, fun times now h => ?_, fun times now h => ?_⟩
  · have h1 : ¬ (t + 60 ≤ t - 180) := by omega
    have h2 : ¬ (t + 60 ≤ t) := by omega
    have h3 : t + 60 ≤ t + 180 := by omega
    have h4 : t + 60 ≤ t + 360 := by omega
    simp [select_future_times, List.filter, h1, h2, h3, h4]
  · obtain ⟨x, hx, hle⟩ := h
    have hmem : x ∈ times.filter (fun tv => decide (now ≤ tv)) :=
      List.mem_filter.mpr ⟨hx, by simpa using hle⟩
    have hpos : 0 < (times.filter (fun tv => decide (now ≤ tv))).length :=
      List.length_pos.mpr (fun he => by rw [he] at hmem; exact absurd hmem (by simp))
    simp only [select_future_times, if_pos hpos]
  · have hnil : times.filter (fun tv => decide (now ≤ tv)) = [] := by
      rw [List.filter_eq_nil_iff]
      intro a ha
      simpa using Int.not_le.mpr (h a ha)
    simp [select_future_times, hnil]

/-- Witness for C5: fallback branch at a concrete axis where nothing is in
the future. -/
theorem C5_temporal_frame_selector_witness :
    select_future_times [(0 : Int), -7] 5 = [0, -7] :=
  C5_temporal_frame_selector.2.2 [0, -7] 5 (by decide)

/-! ## Remote existence prober (`scripts/download_gpv.py`) -/

/-- A HEAD response: final status code after redirects and the numeric
value of the `Content-Length` header when present (the code reads it with
`response.headers.get('Content-Length', 0)`). -/
structure HeadResponse where
  status : Nat
  contentLength : Option Nat
deriving DecidableEq, Repr

/-- `check_file_exists` (download_gpv.py lines 97–121): a `none` input
models a raised `requests.RequestException` (timeout, connection failure).
The code answers `(True, size)` only when the status is exactly 200, with
`size` defaulting to 0 when the `Content-Length` header is absent. -/
def check_file_exists : Option HeadResponse → Bool × Option Nat
  | none => (false, none)
  | some r =>
    if r.status = 200 then (true, some (r.contentLength.getD 0))
    else (false, none)

/-- C7 counterexample: a 2xx status other than 200 carrying a
`Content-Length` header is answered `(False, None)`, and a 200 response
*without* the header is answered `(True, 0)` — both against the claim's
"(True, advertised size) exactly when the HEAD request yields a 2xx
response with a content-length header". -/
theorem C7_counterexample :
    (200 ≤ 201 ∧ 201 ≤ 299 ∧
      (HeadResponse.mk 201 (some 100)).contentLength.isSome = true ∧
      check_file_exists (some (HeadResponse.mk 201 (some 100))) = (false, none)) ∧
    check_file_exists (some (HeadResponse.mk 200 none)) = (true, some 0) := by
  decide

/-- C7 as amended: `(True, size)` exactly on status 200, where `size` is
the advertised `Content-Length` or 0 when the header is absent; `(False,
None)` on any other status and on any network failure. -/
theorem C7_check_file_exists (resp : Option HeadResponse) :
    (resp = none → check_file_exists resp = (false, none)) ∧
    (∀ r, resp = some r → r.status = 200 →
      check_file_exists resp = (true, some (r.contentLength.getD 0))) ∧
    (∀ r, resp = some r → r.status ≠ 200 →
      check_file_exists resp = (false, none)) := by
  refine ⟨fun h => by rw [h]; rfl, fun r hr h200 => ?_, fun r hr hne => ?_⟩
  · rw [hr]; simp [check_file_exists, h200]
  · rw [hr]; simp [check_file_exists, hne]

/-- Witness for C7 at a 200 response advertising 7 bytes. -/
theorem C7_check_file_exists_witness :
    check_file_exists (some (HeadResponse.mk 200 (some 7))) = (true, some 7) :=
  (C7_check_file_exists (some (HeadResponse.mk 200 (some 7)))).2.1
    (HeadResponse.mk 200 (some 7)) rfl rfl

/-- One candidate URL of `find_latest_file` together with the probe
outcome `check_file_exists` would report for it. -/
structure Candidate where
  url : List Char
  found : Bool
  size : Nat
deriving DecidableEq, Repr

/-- `find_latest_file` (download_gpv.py lines 124–155): probes candidates
in order, returns on the first hit, and sleeps the configured
`request_interval` after a miss unless the miss was the last candidate
(`if i < len(urls) - 1`).  Result: the found `(url, size)` if any, the
number of probes issued, and the number of pacing sleeps taken. -/
def find_latest_file : List Candidate → Option (List Char × Nat) × Nat × Nat
  | [] => (none, 0, 0)
  | c :: rest =>
    if c.found then (some (c.url, c.size), 1, 0)
    else if rest.isEmpty then (none, 1, 0)
    else ((find_latest_file rest).1, (find_latest_file rest).2.1 + 1,
      (find_latest_file rest).2.2 + 1)

/-- C8: the prober scans candidates strictly in order: the first existing
candidate is returned having probed only the candidates up to it
(`pre.length + 1` probes) and slept once after each of the `pre.length`
misses before it; with 3 candidates of which only the second exists this
is `(url₂, size₂)` after 2 probes and exactly 1 sleep (between candidates
1 and 2); and on exhaustion every miss but the last is followed by a
sleep. -/
theorem C8_find_latest_file :
    (∀ (pre : List Candidate) (c : Candidate) (post : List Candidate),
      (∀ d ∈ pre, d.found = false) → c.found = true →
      find_latest_file (pre ++ c :: post) =
        (some (c.url, c.size), pre.length + 1, pre.length)) ∧
    (∀ u1 u2 u3 s1 s2 s3, find_latest_file
        [Candidate.mk u1 false s1, Candidate.mk u2 true s2, Candidate.mk u3 false s3] =
      (some (u2, s2), 2, 1)) ∧
    (∀ cands : List Candidate, cands ≠ [] → (∀ d ∈ cands, d.found = false) →
      find_latest_file cands = (none, cands.length, cands.length - 1)) := by
  refine ⟨?_, ?_, ?_⟩
  · intro pre c post hpre hc
    induction pre with
    | nil => simp [find_latest_file, hc]
    | cons d pre ih =>
      have hd : d.found = false := hpre d (by simp)
      have hrest := ih (fun x hx => hpre x (by simp [hx]))
      have hne : (pre ++ c :: post).isEmpty = false := by simp
      simp [List.cons_append, find_latest_file, hd, hne, hrest]
  · intro u1 u2 u3 s1 s2 s3
    simp [find_latest_file]
  · intro cands hne hall
    induction cands with
    | nil => exact absurd rfl hne
    | cons c rest ih =>
      have hc : c.found = false := hall c (by simp)
      cases rest with
      | nil => simp [find_latest_file, hc]
      | cons d rest2 =>
        have hr := ih (by simp) (fun x hx => hall x (by simp [hx]))
        have step : find_latest_file (c :: d :: rest2) =
            ((find_latest_file (d :: rest2)).1, (find_latest_file (d :: rest2)).2.1 + 1,
              (find_latest_file (d :: rest2)).2.2 + 1) := by
          simp [find_latest_file, hc]
        rw [step, hr]
        simp [List.length_cons, Nat.add_sub_cancel]

/-- Witness for C8: second of three candidates exists. -/
theorem C8_find_latest_file_witness :
    find_latest_file
        [Candidate.mk "a".data false 0, Candidate.mk "b".data true 9,
          Candidate.mk "c".data false 0] =
      (some ("b".data, 9), 2, 1) :=
  C8_find_latest_file.1 [Candidate.mk "a".data false 0] (Candidate.mk "b".data true 9)
    [Candidate.mk "c".data false 0] (by decide) rfl

/-! ## Animation encoder cleanup (`scripts/generate_cloud_gif.py`) -/

/-- Outcome of the animation-encoder stage for one variant. -/
inductive EncodeOutcome
  | ok
  | indexError
deriving DecidableEq, Repr

/-- The animation-encoder tail of `generate_cloud_gifs`
(generate_cloud_gif.py lines 393–413) for one variant, over the sorted
frame list collected from `cloud_temp_{name}`: `images[0].save(...)`
writes the GIF and only afterwards does `shutil.rmtree(temp_dir)` run —
there is no `try/finally` around the stage.  The result pairs the
encoding outcome with whether the temporary frame directory was removed.
With zero frames `images` is empty, `images[0]` raises an uncaught
`IndexError`, and the `rmtree` line is never reached. -/
def encode_stage (frames : List (List Char)) : EncodeOutcome × Bool :=
  match frames with
  | [] => (EncodeOutcome.indexError, false)
  | _ :: _ => (EncodeOutcome.ok, true)

/-- C3 (code bug): on a zero-frame input the encoder raises `IndexError`
instead of failing gracefully and leaves `cloud_temp_{name}` behind; the
temporary directory is removed only when at least one frame exists. -/
theorem C3_zero_frames_leaves_temp_dir :
    encode_stage [] = (EncodeOutcome.indexError, false) ∧
      ∀ f fs, encode_stage (f :: fs) = (EncodeOutcome.ok, true) :=
  ⟨rfl, fun _ _ => rfl⟩

/-! ## Resilient fetcher (`scripts/download_gpv.py`, `download_file`) -/

/-- Behaviour of one iteration of `download_file`'s attempt loop
(download_gpv.py lines 175–235), as seen from outside.  `httpError` is
raised by `raise_for_status()` and `noDiskSpace` is the preflight failure,
both before the file is opened (the bytes at `save_path` are whatever an
earlier attempt left).  `timeoutEarly`/`netErrorEarly` are raised by
`requests.get` itself, also before the file is opened.  The `During`
variants and `osError` interrupt the chunk loop after `written` bytes (the
`open(save_path, 'wb')` has already truncated the file).  `complete`
streams every chunk, writing `written` bytes, after which the size check
against the advertised total runs. -/
inductive Attempt
  | httpError
  | noDiskSpace
  | timeoutEarly
  | netErrorEarly
  | timeoutDuring (written : Nat)
  | netErrorDuring (written : Nat)
  | osError (written : Nat)
  | complete (written : Nat)
deriving DecidableEq, Repr

/-- Result of `download_file`: the returned boolean and the bytes now at
`save_path` (`none` = no file on disk). -/
structure FetchResult where
  success : Bool
  file : Option Nat
deriving DecidableEq, Repr

/-- `download_file` (download_gpv.py lines 158–237) over the advertised
`Content-Length` `total`, the prior state of `save_path`, and the list of
attempt behaviours (one per loop iteration, so its length is
`max_retries`; `rest.isEmpty` is the code's `attempt == max_retries`).
Fatal exits: an HTTP error status (line 220), insufficient disk space
(line 189) and a filesystem error (line 225) return `False` at once with
no file removal.  Retryable exits (timeout, transient network error)
reach the retry logic, which on the final attempt removes `save_path` if
present (lines 233–234).  A size mismatch (`total > 0` and `written ≠
total`, lines 206–211) removes the file and retries, except on the final
attempt where it returns `False` without removing. -/
def download_file (total : Nat) : Option Nat → List Attempt → FetchResult
  | file, [] => ⟨false, file⟩
  | file, a :: rest =>
    match a with
    | .httpError => ⟨false, file⟩
    | .noDiskSpace => ⟨false, file⟩
    | .osError w => ⟨false, some w⟩
    | .timeoutEarly =>
      if rest.isEmpty then ⟨false, none⟩ else download_file total file rest
    | .netErrorEarly =>
      if rest.isEmpty then ⟨false, none⟩ else download_file total file rest
    | .timeoutDuring w =>
      if rest.isEmpty then ⟨false, none⟩ else download_file total (some w) rest
    | .netErrorDuring w =>
      if rest.isEmpty then ⟨false, none⟩ else download_file total (some w) rest
    | .complete w =>
      if total > 0 && w != total then
        (if rest.isEmpty then ⟨false, some w⟩ else download_file total none rest)
      else ⟨true, some w⟩

/-- An attempt behaviour that makes `download_file`'s loop proceed to the
next iteration (rather than return): a retryable exception, or a completed
stream whose size check fails. -/
def continuesAttempt (total : Nat) : Attempt → Prop
  | .timeoutEarly => True
  | .netErrorEarly => True
  | .timeoutDuring _ => True
  | .netErrorDuring _ => True
  | .complete w => 0 < total ∧ w ≠ total
  | _ => False

/-- The bytes at `save_path` after a run of proceeding attempts. -/
def fileAfter : Option Nat → List Attempt → Option Nat
  | file, [] => file
  | file, a :: rest =>
    match a with
    | .timeoutEarly => fileAfter file rest
    | .netErrorEarly => fileAfter file rest
    | .timeoutDuring w => fileAfter (some w) rest
    | .netErrorDuring w => fileAfter (some w) rest
    | .complete _ => fileAfter none rest
    | _ => file

theorem download_file_continues (total : Nat) (file : Option Nat) (l tail : List Attempt)
    (h : ∀ a ∈ l, continuesAttempt total a) (htail : tail ≠ []) :
    download_file total file (l ++ tail) =
      download_file total (fileAfter file l) tail := by
  induction l generalizing file with
  | nil => rfl
  | cons a l ih =>
    have ha := h a (by simp)
    have hrest : ∀ b ∈ l, continuesAttempt total b := fun b hb => h b (by simp [hb])
    have hne : (l ++ tail).isEmpty = false := by
      cases tail with
      | nil => exact absurd rfl htail
      | cons x xs => simp
    cases a with
    | httpError => exact absurd ha (by simp [continuesAttempt])
    | noDiskSpace => exact absurd ha (by simp [continuesAttempt])
    | osError w => exact absurd ha (by simp [continuesAttempt])
    | timeoutEarly =>
      have e1 : download_file total file ((Attempt.timeoutEarly :: l) ++ tail) =
          if (l ++ tail).isEmpty then ⟨false, none⟩
          else download_file total file (l ++ tail) := rfl
      rw [e1]
      simp only [hne, Bool.false_eq_true, if_false]
      exact ih file hrest
    | netErrorEarly =>
      have e1 : download_file total file ((Attempt.netErrorEarly :: l) ++ tail) =
          if (l ++ tail).isEmpty then ⟨false, none⟩
          else download_file total file (l ++ tail) := rfl
      rw [e1]
      simp only [hne, Bool.false_eq_true, if_false]
      exact ih file hrest
    | timeoutDuring w =>
      have e1 : download_file total file ((Attempt.timeoutDuring w :: l) ++ tail) =
          if (l ++ tail).isEmpty then ⟨false, none⟩
          else download_file total (some w) (l ++ tail) := rfl
      rw [e1]
      simp only [hne, Bool.false_eq_true, if_false]
      exact ih (some w) hrest
    | netErrorDuring w =>
      have e1 : download_file total file ((Attempt.netErrorDuring w :: l) ++ tail) =
          if (l ++ tail).isEmpty then ⟨false, none⟩
          else download_file total (some w) (l ++ tail) := rfl
      rw [e1]
      simp only [hne, Bool.false_eq_true, if_false]
      exact ih (some w) hrest
    | complete w =>
      obtain ⟨hpos, hne2⟩ : 0 < total ∧ w ≠ total := ha
      have hcond : (decide (total > 0) && (w != total)) = true := by
        rw [Bool.and_eq_true, decide_eq_true_eq, bne_iff_ne]
        exact ⟨hpos, hne2⟩
      have e1 : download_file total file ((Attempt.complete w :: l) ++ tail) =
          if decide (total > 0) && (w != total) then
            (if (l ++ tail).isEmpty then ⟨false, some w⟩
             else download_file total none (l ++ tail))
          else ⟨true, some w⟩ := rfl
      rw [e1]
      simp only [hcond, if_true, hne, Bool.false_eq_true, if_false]
      exact ih none hrest

/-- C1 counterexample: with `max_retries = 1`, an advertised length of 100
and a streamed attempt that wrote only 50 bytes, `download_file` hits the
size-mismatch check on its final attempt and returns `False` while the
50-byte partial file stays at `save_path`. -/
theorem C1_counterexample :
    download_file 100 none [Attempt.complete 50] = ⟨false, some 50⟩ ∧
      (FetchResult.mk false (some 50)).file ≠ none := by
  decide

/-- C1 as amended: only the retry-exhaustion exits via timeout or
transient network error on the final attempt remove the partial file
before returning `False`.  A size mismatch on the final attempt returns
`False` with the wrong-sized file still on disk; an HTTP error status or
the disk-space preflight return `False` leaving whatever bytes earlier
attempts left; a filesystem error returns `False` leaving the bytes
written so far.  (`l` ranges over the earlier, proceeding attempts.) -/
theorem C1_download_file_amended (total : Nat) :
    (∀ (file : Option Nat) (l : List Attempt) (w : Nat),
      (∀ a ∈ l, continuesAttempt total a) →
      download_file total file (l ++ [Attempt.timeoutDuring w]) = ⟨false, none⟩ ∧
      download_file total file (l ++ [Attempt.netErrorDuring w]) = ⟨false, none⟩ ∧
      download_file total file (l ++ [Attempt.timeoutEarly]) = ⟨false, none⟩ ∧
      download_file total file (l ++ [Attempt.netErrorEarly]) = ⟨false, none⟩) ∧
    (∀ (file : Option Nat) (l : List Attempt) (w : Nat),
      (∀ a ∈ l, continuesAttempt total a) → 0 < total → w ≠ total →
      download_file total file (l ++ [Attempt.complete w]) = ⟨false, some w⟩) ∧
    (∀ (file : Option Nat) (l rest : List Attempt) (w : Nat),
      (∀ a ∈ l, continuesAttempt total a) →
      download_file total file (l ++ Attempt.osError w :: rest) = ⟨false, some w⟩) ∧
    (∀ (file : Option Nat) (l rest : List Attempt),
      (∀ a ∈ l, continuesAttempt total a) →
      download_file total file (l ++ Attempt.httpError :: rest) =
        ⟨false, fileAfter file l⟩ ∧
      download_file total file (l ++ Attempt.noDiskSpace :: rest) =
        ⟨false, fileAfter file l⟩) := by
  refine ⟨fun file l w h => ?_, fun file l w h hpos hne => ?_,
    fun file l rest w h => ?_, fun file l rest h => ?_⟩
  · refine ⟨?_, ?_, ?_, ?_⟩ <;>
      (rw [download_file_continues total file l _ h (by simp)]; rfl)
  · rw [download_file_continues total file l _ h (by simp)]
    have hcond : (total > 0 && w != total) = true := by simp [hpos, hne]
    simp [download_file, hcond]
  · rw [download_file_continues total file l _ h (by simp)]
    rfl
  · constructor <;> (rw [download_file_continues total file l _ h (by simp)]; rfl)

/-- Witness for C1's amended theorem: a mid-stream timeout on attempt 1
(40 bytes written) followed by an HTTP error on attempt 2 fails with the
40 stale bytes still on disk; and a lone final-attempt timeout removes the
file. -/
theorem C1_download_file_amended_witness :
    download_file 100 none
        [Attempt.timeoutDuring 40, Attempt.httpError] = ⟨false, some 40⟩ ∧
      download_file 100 none [Attempt.timeoutEarly] = ⟨false, none⟩ :=
  ⟨((C1_download_file_amended 100).2.2.2 none [Attempt.timeoutDuring 40] []
      (by intro a ha; simp at ha; subst ha; trivial)).1,
    ((C1_download_file_amended 100).1 none [] 0 (by simp)).2.2.1⟩

/-! ## Retention reconciler (`scripts/utils.py`, `cleanup_old_files`) -/

/-- One entry of the cache directory: filename and byte size.  (The
directory is a list of such entries in `os.listdir` order; subdirectories
— skipped by the code's `os.path.isfile` check — are not modelled.) -/
structure FileEntry where
  name : List Char
  size : Nat
deriving DecidableEq, Repr

/-- The files `cleanup_old_files` collects (utils.py lines 84–95): `.nc`
suffix and a parseable `MSM` filename, in listing order. -/
def ncFiles (dir : List FileEntry) : List FileEntry :=
  dir.filter (fun f => ".nc".data.isSuffixOf f.name && (parse_filename f.name).isSome)

/-- Order embedding of a (bounded-field) `datetime` into `Nat`: agrees
with Python's field-lexicographic `datetime` comparison whenever
`month < 13`, `day < 32`, `hour < 24` and `minute < 60`, which holds for
every `datetime` built by `mkDatetime`. -/
def dtKey (t : Datetime) : Nat :=
  (((t.year * 13 + t.month) * 32 + t.day) * 24 + t.hour) * 60 + t.minute

/-- Sort key of a collected file: its parsed cycle time (the `x[0]` of
`nc_files.sort(key=lambda x: x[0])`).  Collected files always parse, so
the `none` branch is never hit on `ncFiles` members. -/
def fileKey (f : FileEntry) : Nat :=
  match parse_filename f.name with
  | some t => dtKey t
  | none => 0

/-- Python's `list.sort(reverse=True)`: a stable descending sort.  With
the comparison `key b ≤ key a`, `List.insertionSort` inserts each element
before exactly those later-listed elements with a key `≤` its own, which
reproduces CPython's stable descending order. -/
def sortDescBy (key : FileEntry → Nat) (l : List FileEntry) : List FileEntry :=
  List.insertionSort (fun a b => key b ≤ key a) l

/-- `files_to_delete` of `cleanup_old_files` (utils.py lines 97–104):
empty when nothing parseable is cached; otherwise everything after the
first sorted entry when keeping the latest, or everything. -/
def files_to_delete (dir : List FileEntry) (keep_latest : Bool) : List FileEntry :=
  if (ncFiles dir).isEmpty then []
  else if keep_latest then (sortDescBy fileKey (ncFiles dir)).tail
  else sortDescBy fileKey (ncFiles dir)

/-- The `(deleted_count, freed_bytes)` pair returned by
`cleanup_old_files` (deletion failures, logged and skipped by the code,
are not modelled: every `os.remove` succeeds). -/
def cleanup_old_files (dir : List FileEntry) (keep_latest : Bool) : Nat × Nat :=
  ((files_to_delete dir keep_latest).length,
    ((files_to_delete dir keep_latest).map FileEntry.size).sum)

/-- The directory after `cleanup_old_files`: entries whose path was not
passed to `os.remove`. -/
def cleanup_result_dir (dir : List FileEntry) (keep_latest : Bool) : List FileEntry :=
  dir.filter (fun f => f.name ∉ (files_to_delete dir keep_latest).map FileEntry.name)

theorem sortDescBy_perm (key : FileEntry → Nat) (l : List FileEntry) :
    List.Perm (sortDescBy key l) l :=
  List.perm_insertionSort _ l

theorem sortDescBy_pairwise (key : FileEntry → Nat) (l : List FileEntry) :
    (sortDescBy key l).Pairwise (fun a b => key b ≤ key a) := by
  haveI : IsTotal FileEntry (fun a b => key b ≤ key a) :=
    ⟨fun a b => le_total (key b) (key a)⟩
  haveI : IsTrans FileEntry (fun a b => key b ≤ key a) :=
    ⟨fun _ _ _ hab hbc => le_trans hbc hab⟩
  exact List.sorted_insertionSort _ l

/-! ## Auto-mode orchestration (`scripts/download_gpv.py`, `download_auto`) -/

/-- `os.path.exists(save_path)` plus `os.path.getsize(save_path)` on the
modelled directory: size of the first entry carrying the name, if any. -/
def lookupSize (dir : List FileEntry) (n : List Char) : Option Nat :=
  (dir.find? (fun f => f.name = n)).map FileEntry.size

/-- Result of one `download_auto` run: returned boolean, resulting cache
directory, and whether `download_file` was invoked at all. -/
structure AutoResult where
  success : Bool
  dir : List FileEntry
  downloaded : Bool
deriving DecidableEq, Repr

/-- The fetch half of `download_auto` (download_gpv.py lines 311–335):
pre-download cleanup with `keep_latest=False`, then `download_file` —
whose outcome is the `fetch : FetchResult` input (its `file` component is
the final byte count at `save_path`, per the `download_file` model above)
— then, only on success, the final `keep_latest=True` cleanup.  Logging
is elided. -/
def download_auto_fetch (dir : List FileEntry) (fname : List Char)
    (fetch : FetchResult) : AutoResult :=
  let dir1 := cleanup_result_dir dir false
  let dir2 := match fetch.file with
    | some ws => dir1.filter (fun f => f.name ≠ fname) ++ [⟨fname, ws⟩]
    | none => dir1
  if fetch.success then ⟨true, cleanup_result_dir dir2 true, true⟩
  else ⟨false, dir2, true⟩

/-- `download_auto` (download_gpv.py lines 271–335) after a successful
`find_latest_file` that discovered the filename `fname` advertising
`fsize` bytes: when `fname` is already cached with exactly `fsize` bytes
the code skips the download and runs only a `keep_latest=True` cleanup
(lines 297–307); otherwise (absent, or a size mismatch, line 309) it
proceeds to the fetch path. -/
def download_auto (dir : List FileEntry) (fname : List Char) (fsize : Nat)
    (fetch : FetchResult) : AutoResult :=
  match lookupSize dir fname with
  | some existing =>
    if existing = fsize then ⟨true, cleanup_result_dir dir true, false⟩
    else download_auto_fetch dir fname fetch
  | none => download_auto_fetch dir fname fetch

/-! ## Cleanup lemmas -/

theorem filter_eq_singleton {l : List FileEntry} {a : FileEntry} {p : FileEntry → Bool}
    (hnd : l.Nodup) (ha : a ∈ l) (hp : ∀ x ∈ l, p x = true ↔ x = a) :
    l.filter p = [a] := by
  induction l with
  | nil => simp at ha
  | cons b rest ih =>
    by_cases hab : b = a
    · subst hab
      rw [List.filter_cons, if_pos ((hp b (by simp)).mpr rfl)]
      have hrest : rest.filter p = [] := by
        rw [List.filter_eq_nil_iff]
        intro x hx hpx
        have he := (hp x (by simp [hx])).mp hpx
        subst he
        exact (List.nodup_cons.mp hnd).1 hx
      rw [hrest]
    · have hb : a ∈ rest := by
        rcases List.mem_cons.mp ha with h | h
        · exact absurd h.symm hab
        · exact h
      have hpb : p b = false := by
        rcases Bool.eq_false_or_eq_true (p b) with h | h
        · exact absurd ((hp b (by simp)).mp h) hab
        · exact h
      rw [List.filter_cons, if_neg (by simp [hpb])]
      exact ih (List.nodup_cons.mp hnd).2 hb (fun x hx => hp x (by simp [hx]))

theorem ncFiles_filter (dir : List FileEntry) (p : FileEntry → Bool) :
    ncFiles (dir.filter p) = (ncFiles dir).filter p := by
  simp only [ncFiles, List.filter_filter]
  exact List.filter_congr (fun x _ => by rw [Bool.and_comm])

theorem name_inj {dir : List FileEntry} (hnod : (dir.map FileEntry.name).Nodup)
    {x y : FileEntry} (hx : x ∈ dir) (hy : y ∈ dir) (hxy : x.name = y.name) :
    x = y :=
  List.inj_on_of_nodup_map hnod hx hy hxy

/-- Core behaviour of `cleanup_old_files`/`cleanup_result_dir` with
`keep_latest=True` on a directory with distinct names and at least one
parseable dataset file: one maximal-cycle-time file is kept, every other
parseable file is deleted, unparseable files survive, and the returned
count and freed byte total match the deleted set. -/
theorem cleanup_keep_latest_spec (dir : List FileEntry)
    (hnod : (dir.map FileEntry.name).Nodup) (hne : ncFiles dir ≠ []) :
    ∃ keep, keep ∈ ncFiles dir ∧ (∀ x ∈ ncFiles dir, fileKey x ≤ fileKey keep) ∧
      ncFiles (cleanup_result_dir dir true) = [keep] ∧
      (∀ f ∈ dir, f ∉ ncFiles dir → f ∈ cleanup_result_dir dir true) ∧
      (∀ x ∈ ncFiles dir, x ≠ keep → x ∉ cleanup_result_dir dir true) ∧
      cleanup_old_files dir true =
        ((ncFiles dir).length - 1,
          ((ncFiles dir).map FileEntry.size).sum - keep.size) := by
  have hncnames : ((ncFiles dir).map FileEntry.name).Nodup :=
    List.Nodup.sublist (List.Sublist.map _ (List.filter_sublist dir)) hnod
  have hncnodup : (ncFiles dir).Nodup := List.Nodup.of_map _ hncnames
  cases hs : sortDescBy fileKey (ncFiles dir) with
  | nil =>
    have hp0 := sortDescBy_perm fileKey (ncFiles dir)
    rw [hs] at hp0
    exact absurd (List.Perm.eq_nil hp0.symm) hne
  | cons keep tail =>
    have hperm : List.Perm (keep :: tail) (ncFiles dir) := by
      rw [← hs]; exact sortDescBy_perm fileKey (ncFiles dir)
    have hkeepmem : keep ∈ ncFiles dir := hperm.subset (by simp)
    have hpair := sortDescBy_pairwise fileKey (ncFiles dir)
    rw [hs] at hpair
    have hmax : ∀ x ∈ ncFiles dir, fileKey x ≤ fileKey keep := by
      intro x hx
      rcases List.mem_cons.mp (hperm.symm.subset hx) with h | h
      · subst h; exact le_refl _
      · exact (List.pairwise_cons.mp hpair).1 x h
    have hdel : files_to_delete dir true = tail := by
      unfold files_to_delete
      rw [if_neg (by simp [List.isEmpty_iff, hne]), if_pos rfl, hs]
      rfl
    have hsortnames : ((keep :: tail).map FileEntry.name).Nodup :=
      ((hperm.map FileEntry.name).nodup_iff).mpr hncnames
    have hkeepname : keep.name ∉ tail.map FileEntry.name :=
      (List.nodup_cons.mp hsortnames).1
    have hresult : cleanup_result_dir dir true =
        dir.filter (fun f => f.name ∉ tail.map FileEntry.name) := by
      unfold cleanup_result_dir
      rw [hdel]
    have htailsub : ∀ x ∈ tail, x ∈ ncFiles dir := fun x hx =>
      hperm.subset (by simp [hx])
    refine ⟨keep, hkeepmem, hmax, ?_, ?_, ?_, ?_⟩
    · rw [hresult, ncFiles_filter]
      refine filter_eq_singleton hncnodup hkeepmem ?_
      intro x hx
      simp only [decide_eq_true_eq]
      constructor
      · intro hnotin
        rcases List.mem_cons.mp (hperm.symm.subset hx) with h | h
        · exact h
        · exact absurd (List.mem_map_of_mem FileEntry.name h) hnotin
      · intro he
        subst he
        exact hkeepname
    · intro f hf hfnot
      rw [hresult, List.mem_filter]
      refine ⟨hf, ?_⟩
      simp only [decide_eq_true_eq]
      intro hmem
      rcases List.mem_map.mp hmem with ⟨y, hy, hyn⟩
      have hydir : y ∈ dir := List.mem_of_mem_filter (htailsub y hy)
      have := name_inj hnod hydir hf hyn
      subst this
      exact hfnot (htailsub y hy)
    · intro x hx hxne
      rw [hresult]
      intro hmem
      have hp := (List.mem_filter.mp hmem).2
      simp only [decide_eq_true_eq] at hp
      rcases List.mem_cons.mp (hperm.symm.subset hx) with h | h
      · exact hxne h
      · exact hp (List.mem_map_of_mem FileEntry.name h)
    · unfold cleanup_old_files
      rw [hdel]
      have hlen : (keep :: tail).length = (ncFiles dir).length := hperm.length_eq
      have hsum : ((keep :: tail).map FileEntry.size).sum =
          ((ncFiles dir).map FileEntry.size).sum :=
        (hperm.map FileEntry.size).sum_eq
      simp only [List.length_cons, List.map_cons, List.sum_cons] at hlen hsum
      have h1 : tail.length = (ncFiles dir).length - 1 := by omega
      have h2 : (tail.map FileEntry.size).sum =
          ((ncFiles dir).map FileEntry.size).sum - keep.size := by omega
      rw [h1, h2]

/-- `cleanup_old_files`/`cleanup_result_dir` with `keep_latest=False`:
every parseable dataset file is deleted and counted, unparseable files
survive. -/
theorem cleanup_all_spec (dir : List FileEntry)
    (hnod : (dir.map FileEntry.name).Nodup) :
    ncFiles (cleanup_result_dir dir false) = [] ∧
    (∀ f ∈ dir, f ∉ ncFiles dir → f ∈ cleanup_result_dir dir false) ∧
    cleanup_old_files dir false =
      ((ncFiles dir).length, ((ncFiles dir).map FileEntry.size).sum) := by
  by_cases hne : ncFiles dir = []
  · have hdel : files_to_delete dir false = [] := by
      unfold files_to_delete
      rw [if_pos (by simp [List.isEmpty_iff, hne])]
    have hres : cleanup_result_dir dir false = dir := by
      unfold cleanup_result_dir
      rw [hdel]
      simp
    refine ⟨by rw [hres, hne], fun f hf _ => by rw [hres]; exact hf, ?_⟩
    unfold cleanup_old_files
    rw [hdel, hne]
  · have hperm : List.Perm (sortDescBy fileKey (ncFiles dir)) (ncFiles dir) :=
      sortDescBy_perm fileKey (ncFiles dir)
    have hdel : files_to_delete dir false = sortDescBy fileKey (ncFiles dir) := by
      unfold files_to_delete
      simp [List.isEmpty_iff, hne]
    have hmemnames : ∀ x ∈ ncFiles dir,
        x.name ∈ (files_to_delete dir false).map FileEntry.name := by
      intro x hx
      rw [hdel]
      exact List.mem_map_of_mem FileEntry.name (hperm.symm.subset hx)
    refine ⟨?_, ?_, ?_⟩
    · rw [cleanup_result_dir, ncFiles_filter, List.filter_eq_nil_iff]
      intro x hx
      simp only [decide_eq_true_eq, not_not]
      exact hmemnames x hx
    · intro f hf hfnot
      rw [cleanup_result_dir, List.mem_filter]
      refine ⟨hf, ?_⟩
      simp only [decide_eq_true_eq]
      intro hmem
      rw [hdel] at hmem
      rcases List.mem_map.mp hmem with ⟨y, hy, hyn⟩
      have hync : y ∈ ncFiles dir := hperm.subset hy
      have hydir : y ∈ dir := List.mem_of_mem_filter hync
      have := name_inj hnod hydir hf hyn
      subst this
      exact hfnot hync
    · unfold cleanup_old_files
      rw [hdel, hperm.length_eq, (hperm.map FileEntry.size).sum_eq]

/-! ## C2 and C10 -/

theorem ncFiles_single_parseable {fname : List Char} {ws : Nat}
    (hparse : (parse_filename fname).isSome = true)
    (hsuf : ".nc".data.isSuffixOf fname = true) :
    ncFiles [⟨fname, ws⟩] = [⟨fname, ws⟩] := by
  simp [ncFiles, List.filter_cons, hparse, hsuf]

theorem cleanup_result_dir_of_single {dir2 : List FileEntry} {e : FileEntry}
    (h : ncFiles dir2 = [e]) : cleanup_result_dir dir2 true = dir2 := by
  have hdel : files_to_delete dir2 true = [] := by
    unfold files_to_delete
    rw [h]
    simp [sortDescBy, List.insertionSort, List.orderedInsert]
  unfold cleanup_result_dir
  rw [hdel]
  simp

/-- The parseable dataset entry that a successful `lookupSize` pins down. -/
theorem lookup_mem {dir : List FileEntry} {fname : List Char} {fsize : Nat}
    (h : lookupSize dir fname = some fsize) :
    ∃ e, e ∈ dir ∧ e.name = fname ∧ e.size = fsize := by
  unfold lookupSize at h
  cases hf : dir.find? (fun f => f.name = fname) with
  | none => rw [hf] at h; simp at h
  | some e =>
    rw [hf] at h
    simp only [Option.map_some', Option.some.injEq] at h
    refine ⟨e, List.mem_of_find?_eq_some hf, ?_, h⟩
    have := List.find?_some hf
    simpa using this

theorem ncFiles_append (a b : List FileEntry) :
    ncFiles (a ++ b) = ncFiles a ++ ncFiles b := by
  simp [ncFiles, List.filter_append]

theorem parseable_of_name_eq {dir : List FileEntry} {f : FileEntry} {fname : List Char}
    (hparse : (parse_filename fname).isSome = true)
    (hsuf : ".nc".data.isSuffixOf fname = true)
    (hf : f ∈ dir) (hn : f.name = fname) : f ∈ ncFiles dir := by
  rw [ncFiles, List.mem_filter]
  exact ⟨hf, by rw [hn]; simp [hparse, hsuf]⟩

theorem download_auto_fetch_success_spec (dir : List FileEntry) (fname : List Char)
    (ws : Nat) (hnod : (dir.map FileEntry.name).Nodup)
    (hparse : (parse_filename fname).isSome = true)
    (hsuf : ".nc".data.isSuffixOf fname = true) :
    (download_auto_fetch dir fname ⟨true, some ws⟩).success = true ∧
    (download_auto_fetch dir fname ⟨true, some ws⟩).downloaded = true ∧
    ncFiles (download_auto_fetch dir fname ⟨true, some ws⟩).dir = [⟨fname, ws⟩] ∧
    (∀ f ∈ dir, f ∉ ncFiles dir →
      f ∈ (download_auto_fetch dir fname ⟨true, some ws⟩).dir) := by
  have hall := cleanup_all_spec dir hnod
  have hred : download_auto_fetch dir fname ⟨true, some ws⟩ =
      ⟨true, cleanup_result_dir
        ((cleanup_result_dir dir false).filter (fun f => f.name ≠ fname) ++
          [⟨fname, ws⟩]) true, true⟩ := rfl
  have hnc2 : ncFiles ((cleanup_result_dir dir false).filter (fun f => f.name ≠ fname) ++
      [⟨fname, ws⟩]) = [⟨fname, ws⟩] := by
    rw [ncFiles_append, ncFiles_filter, hall.1, List.filter_nil, List.nil_append,
      ncFiles_single_parseable hparse hsuf]
  have hclean2 := cleanup_result_dir_of_single hnc2
  refine ⟨by rw [hred], by rw [hred], ?_, ?_⟩
  · rw [hred]
    show ncFiles (cleanup_result_dir _ true) = _
    rw [hclean2, hnc2]
  · intro f hf hfnot
    have hfname : f.name ≠ fname := by
      intro he
      exact hfnot (parseable_of_name_eq hparse hsuf hf he)
    rw [hred]
    show f ∈ cleanup_result_dir _ true
    rw [hclean2]
    refine List.mem_append_left _ ?_
    rw [List.mem_filter]
    exact ⟨hall.2.1 f hf hfnot, by simp [hfname]⟩

/-- C2 counterexample: the cache holds `MSM2025010100S.nc` while the
freshest discoverable remote file is the older cycle `MSM2024123121S.nc`
(absent locally).  The successful `download_auto` run deletes the newer
cached file in its pre-download cleanup and ends with the older fetched
file as the sole dataset file — whose cycle time is *not* maximal among
the files present before reconciliation plus the newly fetched one. -/
theorem C2_counterexample :
    download_auto [⟨"MSM2025010100S.nc".data, 5⟩] "MSM2024123121S.nc".data 10
        ⟨true, some 10⟩ =
      ⟨true, [⟨"MSM2024123121S.nc".data, 10⟩], true⟩ ∧
    fileKey ⟨"MSM2024123121S.nc".data, 10⟩ <
      fileKey ⟨"MSM2025010100S.nc".data, 5⟩ := by
  constructor
  · rfl
  · decide

/-- C2 as amended: with `keep_latest=True`, `cleanup_old_files` keeps one
parseable `.nc` file of maximal parsed cycle time, deletes every other
parseable file, leaves unparseable files untouched and uncounted, and
returns the count and byte total of the deleted files ((0,0) when nothing
parses).  After a successful `download_auto` run the cache holds exactly
one parseable dataset file: on the skip path (candidate already cached
with matching size) its cycle time is maximal among the parseable files
present before reconciliation (which include the fetched one); on the
download path it is the newly fetched file itself, whose cycle time need
not be maximal among the files present before reconciliation. -/
theorem C2_cleanup_and_download_auto :
    (∀ dir : List FileEntry, (dir.map FileEntry.name).Nodup → ncFiles dir ≠ [] →
      ∃ keep, keep ∈ ncFiles dir ∧ (∀ x ∈ ncFiles dir, fileKey x ≤ fileKey keep) ∧
        ncFiles (cleanup_result_dir dir true) = [keep] ∧
        (∀ f ∈ dir, f ∉ ncFiles dir → f ∈ cleanup_result_dir dir true) ∧
        (∀ x ∈ ncFiles dir, x ≠ keep → x ∉ cleanup_result_dir dir true) ∧
        cleanup_old_files dir true =
          ((ncFiles dir).length - 1,
            ((ncFiles dir).map FileEntry.size).sum - keep.size)) ∧
    (∀ dir : List FileEntry, ncFiles dir = [] →
      cleanup_old_files dir true = (0, 0) ∧ cleanup_result_dir dir true = dir) ∧
    (∀ (dir : List FileEntry) (fname : List Char) (fsize ws : Nat),
      (dir.map FileEntry.name).Nodup → (parse_filename fname).isSome = true →
      ".nc".data.isSuffixOf fname = true → lookupSize dir fname = some fsize →
      download_auto dir fname fsize ⟨true, some ws⟩ =
        ⟨true, cleanup_result_dir dir true, false⟩ ∧
      ∃ keep, keep ∈ ncFiles dir ∧ (∀ x ∈ ncFiles dir, fileKey x ≤ fileKey keep) ∧
        ncFiles (download_auto dir fname fsize ⟨true, some ws⟩).dir = [keep]) ∧
    (∀ (dir : List FileEntry) (fname : List Char) (fsize ws : Nat),
      (dir.map FileEntry.name).Nodup → (parse_filename fname).isSome = true →
      ".nc".data.isSuffixOf fname = true → lookupSize dir fname ≠ some fsize →
      (download_auto dir fname fsize ⟨true, some ws⟩).success = true ∧
      ncFiles (download_auto dir fname fsize ⟨true, some ws⟩).dir = [⟨fname, ws⟩]) := by
  refine ⟨cleanup_keep_latest_spec, ?_, ?_, ?_⟩
  · intro dir hempty
    have hdel : files_to_delete dir true = [] := by
      unfold files_to_delete
      simp [List.isEmpty_iff, hempty]
    constructor
    · unfold cleanup_old_files
      rw [hdel]
      rfl
    · unfold cleanup_result_dir
      rw [hdel]
      simp
  · intro dir fname fsize ws hnod hparse hsuf hlk
    have hskip : download_auto dir fname fsize ⟨true, some ws⟩ =
        ⟨true, cleanup_result_dir dir true, false⟩ := by
      unfold download_auto
      rw [hlk]
      simp
    obtain ⟨e, hedir, hename, -⟩ := lookup_mem hlk
    have hene : ncFiles dir ≠ [] :=
      List.ne_nil_of_mem (parseable_of_name_eq hparse hsuf hedir hename)
    obtain ⟨keep, hk1, hk2, hk3, -, -, -⟩ := cleanup_keep_latest_spec dir hnod hene
    refine ⟨hskip, keep, hk1, hk2, ?_⟩
    rw [hskip]
    exact hk3
  · intro dir fname fsize ws hnod hparse hsuf hlk
    have hfetch : download_auto dir fname fsize ⟨true, some ws⟩ =
        download_auto_fetch dir fname ⟨true, some ws⟩ := by
      unfold download_auto
      cases hl : lookupSize dir fname with
      | none => rfl
      | some ex =>
        have hne : ex ≠ fsize := by
          intro he
          rw [he] at hl
          exact hlk hl
        simp [hne]
    have hspec := download_auto_fetch_success_spec dir fname ws hnod hparse hsuf
    rw [hfetch]
    exact ⟨hspec.1, hspec.2.2.1⟩

/-- Witness for C2 (download path into an empty cache). -/
theorem C2_cleanup_and_download_auto_witness :
    (download_auto [] "MSM2025122403S.nc".data 3 ⟨true, some 3⟩).success = true ∧
    ncFiles (download_auto [] "MSM2025122403S.nc".data 3 ⟨true, some 3⟩).dir =
      [⟨"MSM2025122403S.nc".data, 3⟩] :=
  C2_cleanup_and_download_auto.2.2.2 [] "MSM2025122403S.nc".data 3 3
    (by decide) (by decide) (by decide) (by decide)

/-- C10 counterexample: the freshest discoverable candidate
`MSM2024123121S.nc` is already cached with the advertised size (10), but
the cache also holds the newer-cycle `MSM2025010100S.nc`; the skip path's
keep-latest cleanup then deletes the size-validated candidate file itself
instead of leaving it unchanged. -/
theorem C10_counterexample :
    download_auto
        [⟨"MSM2025010100S.nc".data, 5⟩, ⟨"MSM2024123121S.nc".data, 10⟩]
        "MSM2024123121S.nc".data 10 ⟨true, some 10⟩ =
      ⟨true, [⟨"MSM2025010100S.nc".data, 5⟩], false⟩ ∧
    FileEntry.mk "MSM2024123121S.nc".data 10 ∉
      [FileEntry.mk "MSM2025010100S.nc".data 5] := by
  constructor
  · rfl
  · decide

/-- C10 as amended: when the discovered candidate is cached with the
advertised size, `download_auto` performs no download attempt, returns
success, and runs a keep-latest cleanup over *all* cached files — which
keeps the file of maximal cycle time, so the fetched file survives
exactly when it is that maximal one and is deleted otherwise; unparseable
files are untouched. -/
theorem C10_skip_no_download (dir : List FileEntry) (fname : List Char) (fsize : Nat)
    (fetch : FetchResult) (hnod : (dir.map FileEntry.name).Nodup)
    (hparse : (parse_filename fname).isSome = true)
    (hsuf : ".nc".data.isSuffixOf fname = true)
    (hlk : lookupSize dir fname = some fsize) :
    download_auto dir fname fsize fetch =
      ⟨true, cleanup_result_dir dir true, false⟩ ∧
    ∃ keep, keep ∈ ncFiles dir ∧ (∀ x ∈ ncFiles dir, fileKey x ≤ fileKey keep) ∧
      ncFiles (cleanup_result_dir dir true) = [keep] ∧
      (∀ x ∈ ncFiles dir, x ≠ keep → x ∉ cleanup_result_dir dir true) ∧
      (∀ f ∈ dir, f ∉ ncFiles dir → f ∈ cleanup_result_dir dir true) := by
  have hskip : download_auto dir fname fsize fetch =
      ⟨true, cleanup_result_dir dir true, false⟩ := by
    unfold download_auto
    rw [hlk]
    simp
  obtain ⟨e, hedir, hename, -⟩ := lookup_mem hlk
  have hene : ncFiles dir ≠ [] :=
    List.ne_nil_of_mem (parseable_of_name_eq hparse hsuf hedir hename)
  obtain ⟨keep, hk1, hk2, hk3, hk4, hk5, -⟩ := cleanup_keep_latest_spec dir hnod hene
  exact ⟨hskip, keep, hk1, hk2, hk3, hk5, hk4⟩

/-- Witness for C10 at a single-entry cache holding the candidate. -/
theorem C10_skip_no_download_witness :
    download_auto [⟨"MSM2025122403S.nc".data, 7⟩] "MSM2025122403S.nc".data 7
        ⟨false, none⟩ =
      ⟨true, [⟨"MSM2025122403S.nc".data, 7⟩], false⟩ :=
  ((C10_skip_no_download [⟨"MSM2025122403S.nc".data, 7⟩] "MSM2025122403S.nc".data 7
      ⟨false, none⟩ (by decide) (by decide) (by decide) (by decide)).1).trans (by decide)

/-! ## C9: totality and shape of `parse_filename` -/

theorem isPrefixOf_exists {l s : List Char} (h : l.isPrefixOf s = true) :
    ∃ r, s = l ++ r := by
  induction l generalizing s with
  | nil => exact ⟨s, rfl⟩
  | cons a as ih =>
    cases s with
    | nil => simp [List.isPrefixOf] at h
    | cons b bs =>
      simp only [List.isPrefixOf, Bool.and_eq_true, beq_iff_eq] at h
      obtain ⟨rfl, h2⟩ := h
      obtain ⟨r, rfl⟩ := ih h2
      exact ⟨r, rfl⟩

theorem isSuffixOf_exists {l s : List Char} (h : l.isSuffixOf s = true) :
    ∃ r, s = r ++ l := by
  have h2 : l.reverse.isPrefixOf s.reverse = true := h
  obtain ⟨r, hr⟩ := isPrefixOf_exists h2
  refine ⟨r.reverse, ?_⟩
  have h3 := congrArg List.reverse hr
  simpa using h3

theorem mem_dropWhile_of_not_ws {c : Char} {l : List Char}
    (hc : isPyWs c = false) (h : c ∈ l) : c ∈ l.dropWhile isPyWs := by
  induction l with
  | nil => simp at h
  | cons a rest ih =>
    rw [List.dropWhile_cons]
    by_cases hpa : isPyWs a = true
    · rw [if_pos hpa]
      rcases List.mem_cons.mp h with rfl | h2
      · rw [hpa] at hc; exact absurd hc (by simp)
      · exact ih h2
    · rw [if_neg hpa]
      exact h

theorem mem_stripPyWs {c : Char} {l : List Char}
    (hc : isPyWs c = false) (h : c ∈ l) : c ∈ stripPyWs l := by
  unfold stripPyWs
  rw [List.mem_reverse]
  exact mem_dropWhile_of_not_ws hc
    (by rw [List.mem_reverse]; exact mem_dropWhile_of_not_ws hc h)

theorem digitsUSAux_none_of_S :
    ∀ (n : Nat) (l : List Char) (acc : Nat), l.length ≤ n → 'S' ∈ l →
      digitsUSAux acc l = none := by
  intro n
  induction n with
  | zero =>
    intro l acc hlen hmem
    rw [List.length_eq_zero.mp (Nat.le_zero.mp hlen)] at hmem
    simp at hmem
  | succ n ih =>
    intro l acc hlen hmem
    cases l with
    | nil => simp at hmem
    | cons c rest =>
      by_cases hc : c = '_'
      · cases rest with
        | nil => subst hc; rfl
        | cons c2 r2 =>
          conv_lhs => rw [digitsUSAux.eq_def]
          simp only [if_pos hc]
          by_cases hc2 : c2.isDigit = true
          · simp only [if_pos hc2]
            apply ih r2 _ (by simp at hlen; omega)
            rcases List.mem_cons.mp hmem with he | he
            · rw [hc] at he; simp at he
            · rcases List.mem_cons.mp he with he2 | he2
              · rw [← he2] at hc2; exact absurd hc2 (by decide)
              · exact he2
          · simp only [if_neg hc2]
      · conv_lhs => rw [digitsUSAux.eq_def]
        simp only [if_neg hc]
        by_cases hcd : c.isDigit = true
        · simp only [if_pos hcd]
          apply ih rest _ (by simp at hlen; omega)
          rcases List.mem_cons.mp hmem with he | he
          · rw [← he] at hcd; exact absurd hcd (by decide)
          · exact he
        · simp only [if_neg hcd]

theorem digitsUS_none_of_S {l : List Char} (h : 'S' ∈ l) : digitsUS l = none := by
  cases l with
  | nil => simp at h
  | cons c rest =>
    unfold digitsUS
    by_cases hcd : c.isDigit = true
    · simp only [if_pos hcd]
      apply digitsUSAux_none_of_S rest.length rest _ (le_refl _)
      rcases List.mem_cons.mp h with he | he
      · rw [← he] at hcd; exact absurd hcd (by decide)
      · exact he
    · simp only [if_neg hcd]

theorem pyInt_none_of_S {l : List Char} (h : 'S' ∈ l) : pyInt l = none := by
  have hm : 'S' ∈ stripPyWs l := mem_stripPyWs (by decide) h
  unfold pyInt
  cases hs : stripPyWs l with
  | nil => rfl
  | cons c rest =>
    rw [hs] at hm
    by_cases hcp : c = '+'
    · have hr : 'S' ∈ rest := by
        rcases List.mem_cons.mp hm with he | he
        · rw [← he] at hcp; exact absurd hcp (by decide)
        · exact he
      simp only [if_pos hcp, digitsUS_none_of_S hr, Option.map_none']
    · by_cases hcm : c = '-'
      · have hr : 'S' ∈ rest := by
          rcases List.mem_cons.mp hm with he | he
          · rw [← he] at hcm; exact absurd hcm (by decide)
          · exact he
        simp only [if_neg hcp, if_pos hcm, digitsUS_none_of_S hr, Option.map_none']
        rfl
      · simp only [if_neg hcp, if_neg hcm, digitsUS_none_of_S hm, Option.map_none']

theorem mkDatetime_valid {y mo d h : Int} {t : Datetime}
    (he : mkDatetime y mo d h = some t) : t.Valid ∧ t.minute = 0 := by
  unfold mkDatetime at he
  split at he
  · rename_i hc
    obtain ⟨h1, h2, h3, h4, h5, h6, h7, h8⟩ := hc
    injection he with he2
    subst he2
    refine ⟨⟨?_, ?_, ?_, ?_, ?_, ?_, ?_, ?_⟩, rfl⟩ <;> (dsimp only; omega)
  · exact absurd he (by simp)

theorem parse_none_of_field {s : List Char}
    (h : pyInt (((s.drop 3).take 10).take 4) = none ∨
      pyInt ((((s.drop 3).take 10).drop 4).take 2) = none ∨
      pyInt ((((s.drop 3).take 10).drop 6).take 2) = none ∨
      pyInt ((((s.drop 3).take 10).drop 8).take 2) = none) :
    parse_filename s = none := by
  unfold parse_filename
  split
  · dsimp only
    split
    · rename_i y mo d hh h1 h2 h3 h4
      rcases h with h | h | h | h
      · rw [h] at h1; exact absurd h1 (by simp)
      · rw [h] at h2; exact absurd h2 (by simp)
      · rw [h] at h3; exact absurd h3 (by simp)
      · rw [h] at h4; exact absurd h4 (by simp)
    · rfl
  · rfl

theorem parse_none_of_short {s : List Char} (hlen : s.length < 17) :
    parse_filename s = none := by
  by_cases hpre : "MSM".data.isPrefixOf s = true
  · by_cases hsuf : "S.nc".data.isSuffixOf s = true
    · obtain ⟨tail, hs1⟩ := isPrefixOf_exists hpre
      obtain ⟨front, hs2⟩ := isSuffixOf_exists hsuf
      have hfl : front.length ≤ 12 := by
        have hl2 := congrArg List.length hs2
        simp at hl2
        omega
      rcases front with _ | ⟨a, _ | ⟨b, _ | ⟨c, mid⟩⟩⟩
      · rw [hs1] at hs2; simp at hs2
      · rw [hs1] at hs2; simp at hs2
      · rw [hs1] at hs2; simp at hs2
      · rw [hs1] at hs2
        simp only [List.cons_append, List.nil_append, List.cons.injEq] at hs2
        obtain ⟨-, -, -, htail⟩ := hs2
        have hmidlen : mid.length ≤ 9 := by
          simp at hfl
          omega
        set p := mid.length with hp
        have htailp : tail[p]? = some 'S' := by
          rw [htail, List.getElem?_append_right (le_refl _)]
          simp
        have hdrop : s.drop 3 = tail := by rw [hs1]; rfl
        have hds : ((s.drop 3).take 10)[p]? = some 'S' := by
          rw [hdrop, List.getElem?_take, if_pos (by omega)]
          exact htailp
        apply parse_none_of_field
        by_cases hp1 : p ≤ 3
        · have hfield : (((s.drop 3).take 10).take 4)[p]? = some 'S' := by
            rw [List.getElem?_take, if_pos (by omega)]
            exact hds
          exact Or.inl (pyInt_none_of_S (List.getElem?_mem hfield))
        · by_cases hp2 : p ≤ 5
          · have hfield : ((((s.drop 3).take 10).drop 4).take 2)[p - 4]? = some 'S' := by
              rw [List.getElem?_take, if_pos (by omega), List.getElem?_drop,
                show 4 + (p - 4) = p from by omega]
              exact hds
            exact Or.inr (Or.inl (pyInt_none_of_S (List.getElem?_mem hfield)))
          · by_cases hp3 : p ≤ 7
            · have hfield : ((((s.drop 3).take 10).drop 6).take 2)[p - 6]? = some 'S' := by
                rw [List.getElem?_take, if_pos (by omega), List.getElem?_drop,
                  show 6 + (p - 6) = p from by omega]
                exact hds
              exact Or.inr (Or.inr (Or.inl (pyInt_none_of_S (List.getElem?_mem hfield))))
            · have hfield : ((((s.drop 3).take 10).drop 8).take 2)[p - 8]? = some 'S' := by
                rw [List.getElem?_take, if_pos (by omega), List.getElem?_drop,
                  show 8 + (p - 8) = p from by omega]
                exact hds
              exact Or.inr (Or.inr (Or.inr (pyInt_none_of_S (List.getElem?_mem hfield))))
    · have hsf : "S.nc".data.isSuffixOf s = false := by
        cases hx : "S.nc".data.isSuffixOf s
        · rfl
        · exact absurd hx hsuf
      simp [parse_filename, hsf]
  · have hpf : "MSM".data.isPrefixOf s = false := by
      cases hx : "MSM".data.isPrefixOf s
      · rfl
      · exact absurd hx hpre
    simp [parse_filename, hpf]

/-- C9 counterexample: the 21-character string `MSM2025122403SabcS.nc` is
not of the exact shape `MSM` + 10 digits + `S.nc` (every such filename has
17 characters), yet `parse_filename` accepts it: the code checks only the
prefix, the suffix, and characters `[3:13]`. -/
theorem C9_counterexample :
    parse_filename "MSM2025122403SabcS.nc".data =
      some (Datetime.mk 2025 12 24 3 0) ∧
    "MSM2025122403SabcS.nc".data.length = 21 ∧
    ∀ t : Datetime, (msmFilename t).length = 17 := by
  refine ⟨rfl, rfl, fun t => ?_⟩
  simp [msmFilename, format_datetime_for_filename, padChars_length]

/-- C9 as amended: `parse_filename` is total — on every string it returns
`None` or a `datetime` whose fields passed the constructor's range checks
(never raising).  It returns `None` whenever the `MSM` prefix or the
`S.nc` suffix is missing, and for every string shorter than 17
characters; but the exact 17-character shape is not otherwise enforced —
longer strings whose characters `[3:13]` form `int()`-convertible fields
of a valid date can also parse (see the counterexample). -/
theorem C9_parse_filename_total_shape :
    (∀ s : List Char, parse_filename s = none ∨
      ∃ t, parse_filename s = some t ∧ t.Valid ∧ t.minute = 0) ∧
    (∀ s : List Char, "MSM".data.isPrefixOf s = false → parse_filename s = none) ∧
    (∀ s : List Char, "S.nc".data.isSuffixOf s = false → parse_filename s = none) ∧
    (∀ s : List Char, s.length < 17 → parse_filename s = none) := by
  refine ⟨?_, ?_, ?_, fun s h => parse_none_of_short h⟩
  · intro s
    unfold parse_filename
    split
    · dsimp only
      split
      · rename_i y mo d hh h1 h2 h3 h4
        cases hm : mkDatetime y mo d hh with
        | none => exact Or.inl rfl
        | some t => exact Or.inr ⟨t, rfl, mkDatetime_valid hm⟩
      · exact Or.inl rfl
    · exact Or.inl rfl
  · intro s h
    simp [parse_filename, h]
  · intro s h
    simp [parse_filename, h]

/-- Witness for C9 at the 7-character string `MSMS.nc`. -/
theorem C9_parse_filename_total_shape_witness :
    parse_filename "MSMS.nc".data = none :=
  C9_parse_filename_total_shape.2.2.2 "MSMS.nc".data (by decide)

/-! ## Candidate URL generator (`scripts/download_gpv.py`) -/

/-- Modelled from the spec: the valid forecast-cycle hours.
`generate_candidate_urls` reads them from
`config['gpv_database']['forecast_hours']`; `config/config.yaml` is not
part of the source tree, and spec sections 4.1 and 8 fix the set to every
3 hours — `[0, 3, 6, 9, 12, 15, 18, 21]` — matching `get_forecast_times`
in utils.py (lines 129–136). -/
def forecast_hours : List Nat := [0, 3, 6, 9, 12, 15, 18, 21]

/-- `t - timedelta(hours=1)` on the calendar, borrowing through day,
month and year exactly as Python's exact datetime arithmetic does. -/
def subHour (t : Datetime) : Datetime :=
  if 0 < t.hour then { t with hour := t.hour - 1 }
  else if 1 < t.day then { t with day := t.day - 1, hour := 23 }
  else if 1 < t.month then
    { t with month := t.month - 1, day := daysInMonth t.year (t.month - 1), hour := 23 }
  else
    { year := t.year - 1, month := 12, day := 31, hour := 23, minute := t.minute }

/-- `t - timedelta(hours=k)`. -/
def subHours (k : Nat) (t : Datetime) : Datetime :=
  match k with
  | 0 => t
  | k + 1 => subHour (subHours k t)

/-- `t.replace(hour=fh, minute=0, second=0, microsecond=0)`. -/
def replaceHour (t : Datetime) (fh : Nat) : Datetime :=
  { t with hour := fh, minute := 0 }

/-- The rounding loop of `generate_candidate_urls` (download_gpv.py lines
78–85): the first `fh` in `reversed(forecast_hours)` with
`fh <= check_time.hour`, or — the `for`/`else` branch — 21:00 of the
previous day when none qualifies. -/
def roundToForecast (hours : List Nat) (t : Datetime) : Datetime :=
  match hours.reverse.find? (fun fh => fh ≤ t.hour) with
  | some fh => replaceHour t fh
  | none => replaceHour (subHours 24 t) 21

/-- The URL `f"{base_url}{date_str}/MSM{date_str}{hour_str}S.nc"`
(download_gpv.py line 89). -/
def candidate_url (base : List Char) (t : Datetime) : List Char :=
  base ++ (format_datetime_for_filename t).1 ++ "/".data ++ msmFilename t

/-- One iteration of the candidate loop (download_gpv.py lines 75–92):
step back `i*3 + delay_hours` hours, round to a forecast time, and append
the URL unless already present. -/
def urlStep (hours : List Nat) (base : List Char) (delay : Nat) (cur : Datetime)
    (urls : List (List Char)) (i : Nat) : List (List Char) :=
  let check_time := subHours (i * 3 + delay) cur
  let forecast_time := roundToForecast hours check_time
  let url := candidate_url base forecast_time
  if url ∈ urls then urls else urls ++ [url]

/-- `generate_candidate_urls` (download_gpv.py lines 54–94): candidates
for `(hours_back // 3) + 2` three-hour steps, newest first, deduplicated
by URL. -/
def generate_candidate_urls (hours : List Nat) (base : List Char) (delay : Nat)
    (cur : Datetime) (hours_back : Nat) : List (List Char) :=
  (List.range (hours_back / 3 + 2)).foldl (urlStep hours base delay cur) []

/-- The forecast times whose URLs `generate_candidate_urls` emits, in
emission order (same loop, same URL-dedup test, accumulating the times
instead of the URL strings). -/
def timeStep (hours : List Nat) (base : List Char) (delay : Nat) (cur : Datetime)
    (ts : List Datetime) (i : Nat) : List Datetime :=
  let forecast_time := roundToForecast hours (subHours (i * 3 + delay) cur)
  if candidate_url base forecast_time ∈ ts.map (candidate_url base) then ts
  else ts ++ [forecast_time]

/-- The cycle times embedded in the generated candidate list. -/
def candidateTimes (hours : List Nat) (base : List Char) (delay : Nat)
    (cur : Datetime) (hours_back : Nat) : List Datetime :=
  (List.range (hours_back / 3 + 2)).foldl (timeStep hours base delay cur) []

/-- The field bounds preserved by calendar arithmetic (no lower bound on
the year: `subHours` may walk below year 1, which the theorems exclude by
hypothesis where it matters). -/
def Datetime.WF (t : Datetime) : Prop :=
  1 ≤ t.month ∧ t.month ≤ 12 ∧ 1 ≤ t.day ∧ t.day ≤ 31 ∧ t.hour ≤ 23 ∧ t.minute ≤ 59

theorem daysInMonth_bounds (y m : Nat) :
    1 ≤ daysInMonth y m ∧ daysInMonth y m ≤ 31 := by
  unfold daysInMonth
  split
  · split <;> omega
  · split <;> omega

theorem Datetime.WF_of_valid {t : Datetime} (h : t.Valid) : t.WF := by
  obtain ⟨-, -, h3, h4, h5, h6, h7, h8⟩ := h
  have := daysInMonth_bounds t.year t.month
  exact ⟨h3, h4, h5, by omega, h7, h8⟩

theorem subHour_wf {t : Datetime} (h : t.WF) : (subHour t).WF := by
  obtain ⟨h1, h2, h3, h4, h5, h6⟩ := h
  have hb := daysInMonth_bounds t.year (t.month - 1)
  unfold subHour Datetime.WF
  split
  · dsimp; omega
  · split
    · dsimp; omega
    · split
      · dsimp; omega
      · dsimp; omega

theorem subHours_wf (k : Nat) {t : Datetime} (h : t.WF) : (subHours k t).WF := by
  induction k with
  | zero => exact h
  | succ k ih => exact subHour_wf ih

theorem subHour_year_le (t : Datetime) : (subHour t).year ≤ t.year := by
  unfold subHour
  split
  · dsimp; omega
  · split
    · dsimp; omega
    · split
      · dsimp; omega
      · dsimp; omega

theorem subHours_year_mono {t : Datetime} {m k : Nat} (h : m ≤ k) :
    (subHours k t).year ≤ (subHours m t).year := by
  induction k with
  | zero =>
    rw [Nat.le_zero.mp h]
  | succ k ih =>
    rcases Nat.lt_succ_iff_lt_or_eq.mp (Nat.lt_succ_of_le h) with h2 | h2
    · exact le_trans (subHour_year_le (subHours k t)) (ih (by omega))
    · rw [h2]

theorem subHour_key_lt {t : Datetime} (hwf : t.WF) (hy : 1 ≤ t.year) :
    dtKey (subHour t) < dtKey t := by
  obtain ⟨h1, h2, h3, h4, h5, h6⟩ := hwf
  have hb := daysInMonth_bounds t.year (t.month - 1)
  unfold subHour dtKey
  split
  · dsimp; omega
  · split
    · dsimp; omega
    · split
      · dsimp; omega
      · dsimp; omega

theorem subHours_key_lt_of_lt {t : Datetime} (hwf : t.WF) {j i K : Nat}
    (hji : j < i) (hiK : i ≤ K) (hy : 1 ≤ (subHours K t).year) :
    dtKey (subHours i t) < dtKey (subHours j t) := by
  induction i with
  | zero => omega
  | succ i ih =>
    have hyi : 1 ≤ (subHours i t).year :=
      le_trans hy (subHours_year_mono (by omega))
    have hstep : dtKey (subHours (i + 1) t) < dtKey (subHours i t) :=
      subHour_key_lt (subHours_wf i hwf) hyi
    rcases Nat.lt_succ_iff_lt_or_eq.mp hji with h | h
    · exact lt_trans hstep (ih h (by omega))
    · rw [h]; exact hstep

theorem roundToForecast_default {t : Datetime} (hh : t.hour ≤ 23) :
    roundToForecast forecast_hours t = replaceHour t (3 * (t.hour / 3)) := by
  obtain ⟨y, mo, d, h, mi⟩ := t
  dsimp at hh
  unfold roundToForecast
  interval_cases h <;> simp [forecast_hours, List.find?_cons, replaceHour]

theorem round_spec {t : Datetime} (hwf : t.WF) :
    (roundToForecast forecast_hours t).WF ∧
    (roundToForecast forecast_hours t).minute = 0 ∧
    (roundToForecast forecast_hours t).hour ∈ forecast_hours ∧
    (roundToForecast forecast_hours t).year = t.year := by
  obtain ⟨h1, h2, h3, h4, h5, h6⟩ := hwf
  rw [roundToForecast_default h5]
  refine ⟨⟨h1, h2, h3, h4, by dsimp [replaceHour]; omega,
    by dsimp [replaceHour]; omega⟩, rfl, ?_, rfl⟩
  show 3 * (t.hour / 3) ∈ forecast_hours
  have h7 : t.hour / 3 ≤ 7 := by omega
  set q := t.hour / 3 with hq
  interval_cases q <;> decide

theorem round_key_le {t₁ t₂ : Datetime} (h1 : t₁.WF) (h2 : t₂.WF)
    (h : dtKey t₂ ≤ dtKey t₁) :
    dtKey (roundToForecast forecast_hours t₂) ≤
      dtKey (roundToForecast forecast_hours t₁) := by
  obtain ⟨a1, b1, c1, d1, e1, f1⟩ := h1
  obtain ⟨a2, b2, c2, d2, e2, f2⟩ := h2
  rw [roundToForecast_default e1, roundToForecast_default e2]
  unfold dtKey replaceHour at *
  dsimp at *
  have q1 := Nat.div_add_mod t₁.hour 3
  have q2 := Nat.div_add_mod t₂.hour 3
  have r1 : t₁.hour % 3 < 3 := Nat.mod_lt _ (by omega)
  have r2 : t₂.hour % 3 < 3 := Nat.mod_lt _ (by omega)
  omega

theorem dtKey_inj {t₁ t₂ : Datetime} (h1 : t₁.WF) (h2 : t₂.WF)
    (he : dtKey t₁ = dtKey t₂) : t₁ = t₂ := by
  obtain ⟨y1, mo1, d1, h1', mi1⟩ := t₁
  obtain ⟨y2, mo2, d2, h2', mi2⟩ := t₂
  obtain ⟨a1, b1, c1, dd1, e1, f1⟩ := h1
  obtain ⟨a2, b2, c2, dd2, e2, f2⟩ := h2
  unfold dtKey at he
  dsimp at *
  have hy : y1 = y2 := by omega
  have hmo : mo1 = mo2 := by omega
  have hd : d1 = d2 := by omega
  have hh : h1' = h2' := by omega
  have hmi : mi1 = mi2 := by omega
  rw [hy, hmo, hd, hh, hmi]

theorem foldl_urlStep_eq_map (hours : List Nat) (base : List Char) (delay : Nat)
    (cur : Datetime) :
    ∀ (is : List Nat) (ts : List Datetime),
      is.foldl (urlStep hours base delay cur) (ts.map (candidate_url base)) =
        (is.foldl (timeStep hours base delay cur) ts).map (candidate_url base) := by
  intro is
  induction is with
  | nil => intro ts; rfl
  | cons i is ih =>
    intro ts
    rw [List.foldl_cons, List.foldl_cons]
    have hstep : urlStep hours base delay cur (ts.map (candidate_url base)) i =
        (timeStep hours base delay cur ts i).map (candidate_url base) := by
      unfold urlStep timeStep
      by_cases hm : candidate_url base
          (roundToForecast hours (subHours (i * 3 + delay) cur)) ∈
            ts.map (candidate_url base)
      · simp only [hm, if_true]
      · simp only [hm, if_false, List.map_append, List.map_cons, List.map_nil]
    rw [hstep]
    exact ih _

theorem generate_eq_map (hours : List Nat) (base : List Char) (delay : Nat)
    (cur : Datetime) (lookback : Nat) :
    generate_candidate_urls hours base delay cur lookback =
      (candidateTimes hours base delay cur lookback).map (candidate_url base) := by
  unfold generate_candidate_urls candidateTimes
  have h := foldl_urlStep_eq_map hours base delay cur
    (List.range (lookback / 3 + 2)) []
  simpa using h

theorem foldl_urlStep_nodup (hours : List Nat) (base : List Char) (delay : Nat)
    (cur : Datetime) :
    ∀ (is : List Nat) (urls : List (List Char)), urls.Nodup →
      (is.foldl (urlStep hours base delay cur) urls).Nodup := by
  intro is
  induction is with
  | nil => intro urls h; exact h
  | cons i is ih =>
    intro urls h
    rw [List.foldl_cons]
    apply ih
    unfold urlStep
    by_cases hm : candidate_url base
        (roundToForecast hours (subHours (i * 3 + delay) cur)) ∈ urls
    · simp only [hm, if_true]
      exact h
    · simp only [hm, if_false]
      rw [List.nodup_append]
      exact ⟨h, List.nodup_singleton _, fun a ha hb => hm ((List.mem_singleton.mp hb) ▸ ha)⟩

theorem foldl_timeStep_spec (base : List Char) (g : Nat → Datetime)
    (Q : Datetime → Prop) (hQ : ∀ i, Q (g i)) (hwf : ∀ t, Q t → t.WF) :
    ∀ (is : List Nat) (acc : List Datetime),
      is.Pairwise (fun a b => dtKey (g b) ≤ dtKey (g a)) →
      acc.Pairwise (fun a b => dtKey b < dtKey a) →
      (∀ t ∈ acc, ∀ j ∈ is, dtKey (g j) ≤ dtKey t) →
      (∀ t ∈ acc, Q t) →
      (is.foldl (fun ts i =>
          if candidate_url base (g i) ∈ ts.map (candidate_url base) then ts
          else ts ++ [g i]) acc).Pairwise (fun a b => dtKey b < dtKey a) ∧
      ∀ t ∈ is.foldl (fun ts i =>
          if candidate_url base (g i) ∈ ts.map (candidate_url base) then ts
          else ts ++ [g i]) acc, Q t := by
  intro is
  induction is with
  | nil => intro acc _ hpa _ hq; exact ⟨hpa, hq⟩
  | cons i is ih =>
    intro acc hpis hpacc hlb hq
    rw [List.foldl_cons]
    obtain ⟨hi_is, hpis2⟩ := List.pairwise_cons.mp hpis
    by_cases hm : candidate_url base (g i) ∈ acc.map (candidate_url base)
    · rw [if_pos hm]
      exact ih acc hpis2 hpacc (fun t ht j hj => hlb t ht j (by simp [hj])) hq
    · rw [if_neg hm]
      apply ih
      · exact hpis2
      · rw [List.pairwise_append]
        refine ⟨hpacc, List.pairwise_singleton _ _, ?_⟩
        intro t ht t2 ht2
        rw [List.mem_singleton] at ht2
        subst ht2
        have hle : dtKey (g i) ≤ dtKey t := hlb t ht i (by simp)
        rcases lt_or_eq_of_le hle with hlt | heq
        · exact hlt
        · exfalso
          have hgt : g i = t := dtKey_inj (hwf _ (hQ i)) (hwf _ (hq t ht)) heq
          exact hm (hgt ▸ List.mem_map_of_mem (candidate_url base) ht)
      · intro t ht j hj
        rcases List.mem_append.mp ht with h | h
        · exact hlb t h j (by simp [hj])
        · rw [List.mem_singleton] at h
          subst h
          exact hi_is j hj
      · intro t ht
        rcases List.mem_append.mp ht with h | h
        · exact hq t h
        · rw [List.mem_singleton] at h
          subst h
          exact hQ i

theorem candidateTimes_spec (base : List Char) (delay lookback : Nat)
    (cur : Datetime) (hv : cur.Valid)
    (hy : 1 ≤ (subHours ((lookback / 3 + 1) * 3 + delay) cur).year) :
    (candidateTimes forecast_hours base delay cur lookback).Pairwise
      (fun a b => dtKey b < dtKey a) ∧
    ∀ t ∈ candidateTimes forecast_hours base delay cur lookback,
      t.WF ∧ t.minute = 0 ∧ t.hour ∈ forecast_hours := by
  have hwfcur := Datetime.WF_of_valid hv
  have hQ : ∀ i : Nat, (roundToForecast forecast_hours
        (subHours (i * 3 + delay) cur)).WF ∧
      (roundToForecast forecast_hours (subHours (i * 3 + delay) cur)).minute = 0 ∧
      (roundToForecast forecast_hours (subHours (i * 3 + delay) cur)).hour ∈
        forecast_hours := by
    intro i
    obtain ⟨hw, hm, hh, -⟩ := round_spec (subHours_wf (i * 3 + delay) hwfcur)
    exact ⟨hw, hm, hh⟩
  have hpr : (List.range (lookback / 3 + 2)).Pairwise
      (fun a b => dtKey (roundToForecast forecast_hours
          (subHours (b * 3 + delay) cur)) ≤
        dtKey (roundToForecast forecast_hours (subHours (a * 3 + delay) cur))) := by
    refine List.Pairwise.imp_of_mem ?_ (List.pairwise_lt_range _)
    intro a b ha hb hab
    have hbn : b < lookback / 3 + 2 := List.mem_range.mp hb
    have hlt : dtKey (subHours (b * 3 + delay) cur) <
        dtKey (subHours (a * 3 + delay) cur) :=
      subHours_key_lt_of_lt hwfcur (by omega)
        (show b * 3 + delay ≤ (lookback / 3 + 1) * 3 + delay from by omega) hy
    exact round_key_le (subHours_wf _ hwfcur) (subHours_wf _ hwfcur) (le_of_lt hlt)
  have h := foldl_timeStep_spec base
    (fun i => roundToForecast forecast_hours (subHours (i * 3 + delay) cur))
    (fun t => t.WF ∧ t.minute = 0 ∧ t.hour ∈ forecast_hours)
    hQ (fun t ht => ht.1) (List.range (lookback / 3 + 2)) [] hpr
    (List.Pairwise.nil) (by simp) (by simp)
  exact h

/-- C4 counterexample: called with the valid-cycle-hour set `[6, 12]`,
current time 2025-06-10 03:00 and zero delay, the generator's `for`/`else`
wrap emits the hardcoded previous-day 21:00 cycle, so the embedded hour 21
is not drawn from the valid-hour set. -/
theorem C4_counterexample :
    generate_candidate_urls [6, 12] "b".data 0 (Datetime.mk 2025 6 10 3 0) 0 =
      [candidate_url "b".data (Datetime.mk 2025 6 9 21 0)] ∧
    candidateTimes [6, 12] "b".data 0 (Datetime.mk 2025 6 10 3 0) 0 =
      [Datetime.mk 2025 6 9 21 0] ∧
    (21 : Nat) ∉ [6, 12] := by
  refine ⟨rfl, rfl, by decide⟩

/-- C4 as amended: with the configured valid-cycle-hour set
`[0, 3, ..., 21]` (under which the previous-day-21:00 wrap can never
fire, since hour 0 always qualifies), for every current time, publication
delay and lookback window the candidate list contains no duplicate URLs,
equals the URL images of its embedded cycle times, those cycle times are
strictly decreasing (newest first), and every embedded hour is drawn from
the valid-hour set (with minutes zeroed).  The year-positivity hypothesis
keeps the `lookback/3 + 2` three-hour backward steps of Python's
calendar arithmetic above `datetime.min`. -/
theorem C4_candidate_urls (base : List Char) (delay lookback : Nat)
    (cur : Datetime) (hv : cur.Valid)
    (hy : 1 ≤ (subHours ((lookback / 3 + 1) * 3 + delay) cur).year) :
    (generate_candidate_urls forecast_hours base delay cur lookback).Nodup ∧
    generate_candidate_urls forecast_hours base delay cur lookback =
      (candidateTimes forecast_hours base delay cur lookback).map
        (candidate_url base) ∧
    (candidateTimes forecast_hours base delay cur lookback).Pairwise
      (fun a b => dtKey b < dtKey a) ∧
    ∀ t ∈ candidateTimes forecast_hours base delay cur lookback,
      t.hour ∈ forecast_hours ∧ t.minute = 0 := by
  obtain ⟨hp, hq⟩ := candidateTimes_spec base delay lookback cur hv hy
  refine ⟨foldl_urlStep_nodup forecast_hours base delay cur _ [] List.nodup_nil,
    generate_eq_map forecast_hours base delay cur lookback, hp, ?_⟩
  intro t ht
  obtain ⟨-, hmin, hmem⟩ := hq t ht
  exact ⟨hmem, hmin⟩

/-- Witness for C4 at the spec's section-8 scenario (current time
2025-12-19T05:00Z, delay 2h, lookback 12h). -/
theorem C4_candidate_urls_witness :
    (generate_candidate_urls forecast_hours "B/".data 2
      (Datetime.mk 2025 12 19 5 0) 12).Nodup :=
  (C4_candidate_urls "B/".data 2 12 (Datetime.mk 2025 12 19 5 0)
    (by decide) (by decide)).1
